import Mathlib

/-!
Verification of the feature-dependency graph core of the repository
(`scripts/deps.py`, class `DependencyAnalyzer`, plus the loader shared with
`scripts/search.py`).  Python dictionaries keyed by feature code are embedded
as association lists `List (String × _)` in insertion order; `dict.get(k, [])`
becomes `adj`; the BFS/DFS loops of the source become fuel-indexed structural
recursions together with theorems showing the chosen fuel suffices.
-/

namespace RuvectorDeps

/-- The in-memory `self.dependency_graph` / `self.conflict_graph` shape:
a Python `Dict[str, List[str]]` in insertion order. -/
abbrev Graph := List (String × List String)

/-- `self.dependency_graph.get(code, [])` — adjacency lookup with default. -/
def adj (g : Graph) (code : String) : List String :=
  (List.lookup code g).getD []

/-- All feature keys and all edge targets occurring in the graph (with
duplicates); every node the traversals can ever touch occurs in this list. -/
def nodesOf (g : Graph) : List String :=
  g.map Prod.fst ++ g.flatMap Prod.snd

/-- Edge relation of the loaded dependency graph: `b ∈ g.get(a, [])`. -/
def Edge (g : Graph) (a b : String) : Prop := b ∈ adj g a

/-! ## JSON loading (`DependencyAnalyzer._load_json`, `_load_data`) -/

/-- Minimal JSON value shape needed by the loaders. -/
inductive JsonValue where
  | obj (fields : List (String × JsonValue))
  | arr (elems : List JsonValue)
  | str (s : String)

/-- Character-list prefix test. -/
def listPrefix : List Char → List Char → Bool
  | [], _ => true
  | _ :: _, [] => false
  | c :: cs, d :: ds => c == d && listPrefix cs ds

/-- Character-list substring test: `n` occurs somewhere in the argument. -/
def containsSub (n : List Char) : List Char → Bool
  | [] => n.isEmpty
  | c :: t => listPrefix n (c :: t) || containsSub n t

/-- Python's substring test `'index' in filename`. -/
def strContains (hay needle : String) : Bool :=
  containsSub needle.data hay.data

/-- `DependencyAnalyzer._load_json` (deps.py lines 27–34): when the file is
absent it returns an empty dict for filenames containing `'index'` and an
empty list otherwise; it never raises.  The `Except` result type records the
abort channel that a `NotFoundError` would use: no code path produces
`.error`. -/
def load_json (fs : String → Option JsonValue) (filename : String) :
    Except String JsonValue :=
  match fs filename with
  | none => if strContains filename "index" then .ok (.obj []) else .ok (.arr [])
  | some v => .ok v

/-- One record of `dep_graph['edges'][edge_type]`: `edge.get('from')`,
`edge.get('to')`. -/
structure DepEdge where
  from_node : Option String
  to_node : Option String
deriving DecidableEq

/-- Python truthiness guard `if from_node and to_node` (deps.py line 50):
both present and non-empty. -/
def edgeEndpoints (e : DepEdge) : Option (String × String) :=
  match e.from_node, e.to_node with
  | some f, some t => if f ≠ "" ∧ t ≠ "" then some (f, t) else none
  | _, _ => none

/-- deps.py lines 51–53: ensure the key exists, then append the target. -/
def add_edge (g : Graph) (f t : String) : Graph :=
  if (List.lookup f g).isSome then
    g.map (fun p => if p.1 = f then (p.1, p.2 ++ [t]) else p)
  else g ++ [(f, [t])]

/-- deps.py lines 43–53: iterate over `dep_graph['edges'].items()` and append
every edge — of every `edge_type` — to `self.dependency_graph`. -/
def load_edges (edgesByType : List (String × List DepEdge)) : Graph :=
  edgesByType.foldl
    (fun g p => p.2.foldl
      (fun g e =>
        match edgeEndpoints e with
        | some ft => add_edge g ft.1 ft.2
        | none => g) g) []

/-- The two graphs owned by `DependencyAnalyzer`. -/
structure AnalyzerGraphs where
  dependency_graph : Graph
  conflict_graph : Graph
deriving DecidableEq

/-- `DependencyAnalyzer._load_data` restricted to the graph state: the
dependency graph receives every edge of every type, while `conflict_graph`
keeps the empty value given to it in `__init__` (deps.py line 22) — no code
ever writes to it. -/
def load_data (edgesByType : List (String × List DepEdge)) : AnalyzerGraphs :=
  { dependency_graph := load_edges edgesByType, conflict_graph := [] }

/-! ## BFS traversals (`get_dependencies` / `get_dependents`) -/

/-- The shared loop shape of deps.py lines 79–92 and 110–123: pop from the
queue, skip if visited, otherwise record the node and enqueue its not-yet
visited successors.  `fuel` bounds the number of loop iterations; the source
loop has no bound, and `bfsAux_fuel_eq` below shows the fuel used by the
wrappers is enough for the loop to drain its queue. -/
def bfsAux (succ : String → List String) :
    Nat → List String → List String → List String → List String
  | _, [], _, acc => acc.reverse
  | 0, _ :: _, _, acc => acc.reverse
  | fuel + 1, current :: rest, visited, acc =>
    if current ∈ visited then bfsAux succ fuel rest visited acc
    else
      bfsAux succ fuel
        (rest ++ (succ current).filter (fun d => !decide (d ∈ current :: visited)))
        (current :: visited) (current :: acc)

/-- Fuel bound used by `get_dependencies`: enough iterations to pop the
initial queue and, for every node occurrence, its own enqueueings. -/
def depsFuel (g : Graph) (code : String) : Nat :=
  (adj g code).length + ((nodesOf g).map (fun x => 1 + (adj g x).length)).sum

/-- `DependencyAnalyzer.get_dependencies` (deps.py lines 67–92). -/
def get_dependencies (g : Graph) (faj_code : String) (recursive : Bool) :
    List String :=
  let direct_deps := adj g faj_code
  if !recursive then direct_deps
  else bfsAux (adj g) (depsFuel g faj_code) direct_deps [] []

/-- Reverse lookup of deps.py lines 98–100 and 119–121: all keys whose
dependency list contains `code`, in insertion order. -/
def revSucc (g : Graph) (code : String) : List String :=
  (g.filter (fun p => decide (code ∈ p.2))).map Prod.fst

/-- Fuel bound used by `get_dependents`. -/
def dependentsFuel (g : Graph) (code : String) : Nat :=
  (revSucc g code).length + ((nodesOf g).map (fun x => 1 + (revSucc g x).length)).sum

/-- `DependencyAnalyzer.get_dependents` (deps.py lines 94–123). -/
def get_dependents (g : Graph) (faj_code : String) (recursive : Bool) :
    List String :=
  let dependents := revSucc g faj_code
  if !recursive then dependents
  else bfsAux (revSucc g) (dependentsFuel g faj_code) dependents [] []

/-- A feature record, as far as `get_impact_analysis` reads it:
`self.features.get(faj_code, {}).get('name', 'Unknown')`. -/
structure FeatureRec where
  name : Option String
deriving DecidableEq

/-- Result dictionary of `DependencyAnalyzer.get_impact_analysis`
(deps.py lines 158–166). -/
structure ImpactAnalysis where
  feature : String
  name : String
  dependents : List String
  impact_count : Nat
  direct_dependents : List String
deriving DecidableEq

/-- `DependencyAnalyzer.get_impact_analysis` (deps.py lines 158–166). -/
def get_impact_analysis (features : List (String × FeatureRec)) (g : Graph)
    (faj_code : String) : ImpactAnalysis :=
  { feature := faj_code
    name := ((List.lookup faj_code features).bind FeatureRec.name).getD "Unknown"
    dependents := get_dependents g faj_code true
    impact_count := (get_dependents g faj_code true).length
    direct_dependents := get_dependents g faj_code false }

/-! ## Cycle detection (`find_cycles`, deps.py lines 125–156) -/

/-- The body of `dfs_cycle`: process the remaining neighbour list `ns` of the
node currently on top of `stack`.  Descending into an unvisited neighbour `n`
inlines the recursive `dfs_cycle(n, path.copy(), stack.copy())` call of the
source: `n` is pushed on the (value-passed) stack, marked visited, and its own
neighbour list is processed; the threaded `visited` models the mutated global
set.  A neighbour that is visited and on the current stack yields the cycle
`stack[stack.index(n):] + [n]`.  `fuel` bounds the number of steps; the
source recursion has no bound and `dfs_fuel_sound` below shows the fuel used
by `find_cycles` can never run out. -/
def dfs_neighbors (g : Graph) :
    Nat → List String → List String → List String →
    List String × Option (List String)
  | 0, _, _, visited => (visited, none)
  | fuel + 1, ns, stack, visited =>
    match ns with
    | [] => (visited, none)
    | n :: rest =>
      if n ∈ visited then
        if n ∈ stack then
          (visited, some (stack.dropWhile (fun x => x != n) ++ [n]))
        else dfs_neighbors g fuel rest stack visited
      else
        match dfs_neighbors g fuel (adj g n) (stack ++ [n]) (n :: visited) with
        | (v', some c) => (v', some c)
        | (v', none) => dfs_neighbors g fuel rest stack v'

/-- `dfs_cycle(node, path, stack)` of deps.py lines 130–148: mark the node
visited, push it, and walk its neighbours. -/
def dfs_cycle (g : Graph) (fuel : Nat) (node : String) (stack visited : List String) :
    List String × Option (List String) :=
  match fuel with
  | 0 => (visited, none)
  | fuel + 1 => dfs_neighbors g fuel (adj g node) (stack ++ [node]) (node :: visited)

/-- Fuel that `find_cycles` hands to each DFS; `dfs_fuel_sound` shows it is
never exhausted. -/
def cycleFuel (g : Graph) : Nat :=
  1 + ((nodesOf g).map (fun x => 2 + (adj g x).length)).sum

/-- The driver loop of deps.py lines 150–154: run a DFS from every not yet
visited key, collecting reported cycles (skipping exact duplicates). -/
def find_cycles_go (g : Graph) :
    List String → List String → List (List String) → List (List String)
  | [], _, cycles => cycles
  | node :: rest, visited, cycles =>
    if node ∈ visited then find_cycles_go g rest visited cycles
    else
      match dfs_cycle g (cycleFuel g) node [] visited with
      | (v', some c) =>
        find_cycles_go g rest v' (if c ∈ cycles then cycles else cycles ++ [c])
      | (v', none) => find_cycles_go g rest v' cycles

/-- `DependencyAnalyzer.find_cycles` (deps.py lines 125–156). -/
def find_cycles (g : Graph) : List (List String) :=
  find_cycles_go g (g.map Prod.fst) [] []

/-! ## Spec-modelled components

The spec's `conflictsOf` (§4.3), `order` (§4.4) and `validate` (§4.5) have no
implementation under `scripts/`; only the `conflict_graph` attribute they
would read is declared (deps.py line 22).  They are modelled from the spec's
words below. -/

/-- Modelled from the spec: `conflictsOf(key)` of §4.3 is missing from the
source tree (no query reads `conflict_graph`).  Per the spec it returns "targets
where `key` declares a Conflicting edge to them, and sources that declare a
Conflicting edge to `key`" — the symmetric closure over one explicit
direction. -/
def conflictsOf (conflict_graph : Graph) (key : String) : List String :=
  (adj conflict_graph key ++
    (conflict_graph.filter (fun p => decide (key ∈ p.2))).map Prod.fst).dedup

/-- Lexicographic string comparison (by the character list of the string). -/
def strLe (a b : String) : Bool :=
  decide (a.data ≤ b.data)

/-- Total comparison used for the spec's deterministic tie-break: ascending
display name; keys with equal display names are ordered by key so that the
comparison is total. -/
def leKey (names : String → String) (a b : String) : Bool :=
  if names a = names b then strLe a b else strLe (names a) (names b)

/-- Smaller of two keys under `leKey`. -/
def minKey (names : String → String) (a b : String) : String :=
  if leKey names a b then a else b

/-- Minimum of a list of keys under `leKey` (`none` on the empty list). -/
def pickMin (names : String → String) (l : List String) : Option String :=
  l.foldr
    (fun y m => match m with
      | none => some y
      | some m => some (minKey names y m)) none

/-- Modelled from the spec: one round of Kahn's algorithm of §4.4 — among the
remaining nodes whose in-set Prerequisite targets have all been emitted, emit
the one with the least display name; stop when none is eligible. -/
def kahnAux (g : Graph) (names : String → String) (nodes : List String) :
    Nat → List String → List String → List String
  | 0, _, acc => acc.reverse
  | fuel + 1, remaining, acc =>
    let eligible := remaining.filter
      (fun n => (adj g n).all (fun p => !(decide (p ∈ nodes) && decide (p ∈ remaining))))
    match pickMin names eligible with
    | none => acc.reverse
    | some m => kahnAux g names nodes fuel (remaining.erase m) (m :: acc)

/-- Modelled from the spec: the activation sequence of `order(requestedKeys)`
(§4.4) is missing from the source tree.  Per the spec: union the requested set
with the transitive Prerequisite closure of each key (via the flattened
traversal of §4.3, `get_dependencies` with `recursive=True`), then run Kahn's
algorithm over the induced Prerequisite subgraph with the deterministic
name-ascending tie-break.  Only the output sequence is modelled; the
conflict/unresolved reports of the full contract are not needed by the
claims. -/
def order (g : Graph) (names : String → String) (requested : List String) :
    List String :=
  let nodes := (requested.flatMap (fun k => k :: get_dependencies g k true)).dedup
  kahnAux g names nodes nodes.length nodes []

/-- An unordered conflict pair "deduplicated by sorted key tuple" (§4.5). -/
def normPair (a b : String) : String × String :=
  if strLe a b then (a, b) else (b, a)

/-- Result structure of `validate(requestedKeys)` (§4.5). -/
structure ValidationResult where
  canCoexist : Bool
  resolved : List String
  conflictPairs : List (String × String)
  missingPrerequisites : List (String × String)
deriving DecidableEq

/-- Modelled from the spec: `validate(requestedKeys)` of §4.5 is missing from
the source tree.  For every Conflicting edge between two distinct resolved
members of the requested set an unordered pair is recorded once; at least one
pair sets `canCoexist = false`; Prerequisite targets outside the resolved set
are collected as advisory `missingPrerequisites`.  Key resolution is out of
scope for the claims, so every requested key is treated as resolved. -/
def validate (dependency_graph conflict_graph : Graph) (requested : List String) :
    ValidationResult :=
  let resolved := requested.dedup
  let conflictPairs :=
    (resolved.flatMap (fun a =>
      ((adj conflict_graph a).filter
        (fun b => decide (b ∈ resolved) && !(b == a))).map (normPair a))).dedup
  { canCoexist := conflictPairs.isEmpty
    resolved := resolved
    conflictPairs := conflictPairs
    missingPrerequisites :=
      resolved.flatMap (fun a =>
        ((adj dependency_graph a).filter
          (fun t => !decide (t ∈ resolved))).map (fun t => (a, t))) }

/-- Proof-side measure: total weight of the distinct not-yet-visited nodes.
Used to show the fuel handed to the traversals can never run out. -/
def weightSum (w : String → Nat) (g : Graph) (v : List String) : Nat :=
  (((nodesOf g).dedup.filter (fun x => !decide (x ∈ v))).map w).sum

/-- Proof-side measure for the cycle DFS. -/
def cycleWeight (g : Graph) (v : List String) : Nat :=
  weightSum (fun x => 2 + (adj g x).length) g v

/-- Proof-side certificate for the cycle DFS: `M` lists a set of finished
nodes, most recently finished first; every edge out of a listed node points
either to a node finished strictly earlier (behind it in `M`) or to a node
that was already visited before this DFS block and is not on the DFS stack. -/
def TopoAfter (g : Graph) (M stack visited : List String) : Prop :=
  ∀ P a S, M = P ++ a :: S → ∀ b, Edge g a b → b ∈ S ∨ (b ∈ visited ∧ b ∉ stack)

/-! ## Association-list helper lemmas -/

theorem lookup_mem {a : String} {l : List String} :
    ∀ {g : Graph}, List.lookup a g = some l → (a, l) ∈ g := by
  intro g
  induction g with
  | nil => intro h; simp [List.lookup] at h
  | cons p es ih =>
    intro h
    obtain ⟨k, v⟩ := p
    rw [List.lookup_cons] at h
    cases hak : (a == k) with
    | false => rw [hak] at h; exact List.mem_cons_of_mem _ (ih h)
    | true =>
      rw [hak] at h
      obtain rfl : v = l := by simpa using h
      obtain rfl : a = k := eq_of_beq hak
      exact List.mem_cons_self _ _

theorem lookup_eq_some_of_mem {a : String} {l : List String} :
    ∀ {g : Graph}, (g.map Prod.fst).Nodup → (a, l) ∈ g →
      List.lookup a g = some l := by
  intro g
  induction g with
  | nil => intro _ h; simp at h
  | cons p es ih =>
    intro hnd h
    obtain ⟨k, v⟩ := p
    simp only [List.map_cons, List.nodup_cons] at hnd
    rw [List.lookup_cons]
    rcases List.mem_cons.mp h with heq | hmem
    · injection heq with h1 h2
      subst h1; subst h2
      simp
    · have hak : (a == k) = false := by
        refine beq_eq_false_iff_ne.mpr ?_
        rintro rfl
        exact hnd.1 (List.mem_map_of_mem Prod.fst hmem)
      rw [hak]
      exact ih hnd.2 hmem

theorem adj_eq_of_mem {g : Graph} {a : String} {l : List String}
    (hnd : (g.map Prod.fst).Nodup) (h : (a, l) ∈ g) : adj g a = l := by
  unfold adj
  rw [lookup_eq_some_of_mem hnd h]
  rfl

theorem mem_adj_iff {g : Graph} {a b : String}
    (hnd : (g.map Prod.fst).Nodup) :
    b ∈ adj g a ↔ ∃ l, (a, l) ∈ g ∧ b ∈ l := by
  constructor
  · intro hb
    unfold adj at hb
    cases hl : List.lookup a g with
    | none => rw [hl] at hb; simp at hb
    | some l => exact ⟨l, lookup_mem hl, by rwa [hl] at hb⟩
  · rintro ⟨l, hmem, hb⟩
    rwa [adj_eq_of_mem hnd hmem]

theorem mem_keys_of_adj {g : Graph} {a b : String} (h : b ∈ adj g a) :
    a ∈ g.map Prod.fst := by
  unfold adj at h
  cases hl : List.lookup a g with
  | none => rw [hl] at h; simp at h
  | some l => exact List.mem_map_of_mem Prod.fst (lookup_mem hl)

theorem adj_subset_nodesOf {g : Graph} {a b : String} (h : b ∈ adj g a) :
    b ∈ nodesOf g := by
  unfold adj at h
  cases hl : List.lookup a g with
  | none => rw [hl] at h; simp at h
  | some l =>
    rw [hl] at h
    refine List.mem_append_right _ ?_
    exact List.mem_flatMap.mpr ⟨(a, l), lookup_mem hl, h⟩

theorem keys_subset_nodesOf {g : Graph} {a : String} (h : a ∈ g.map Prod.fst) :
    a ∈ nodesOf g :=
  List.mem_append_left _ h

theorem revSucc_subset_keys {g : Graph} {a b : String} (h : b ∈ revSucc g a) :
    b ∈ g.map Prod.fst := by
  unfold revSucc at h
  obtain ⟨p, hp, rfl⟩ := List.mem_map.mp h
  exact List.mem_map_of_mem Prod.fst (List.mem_filter.mp hp).1

theorem mem_revSucc_iff {g : Graph} {a b : String} :
    b ∈ revSucc g a ↔ ∃ l, (b, l) ∈ g ∧ a ∈ l := by
  unfold revSucc
  constructor
  · intro h
    obtain ⟨p, hp, rfl⟩ := List.mem_map.mp h
    have := List.mem_filter.mp hp
    exact ⟨p.2, this.1, by simpa using this.2⟩
  · rintro ⟨l, hmem, ha⟩
    exact List.mem_map.mpr ⟨(b, l), List.mem_filter.mpr ⟨hmem, by simpa using ha⟩, rfl⟩

/-! ## C1 — edge classification during graph construction -/

/-- **C1.** Failing-input evaluation: loading a record set whose single edge is
declared under the `Conflicting` relation kind places that edge in
`dependency_graph` — the prerequisite bucket that `get_dependencies` reads —
and leaves `conflict_graph` empty, because `_load_data` appends every edge of
every `edge_type` to `self.dependency_graph` and never writes
`self.conflict_graph`.  This contradicts the claim that each edge is appended
only to the bucket matching its relation kind. -/
theorem c1_conflicting_edge_lands_in_dependency_bucket :
    (load_data [("Conflicting", [⟨some "A", some "B"⟩])]).dependency_graph
        = [("A", ["B"])] ∧
    (load_data [("Conflicting", [⟨some "A", some "B"⟩])]).conflict_graph = [] ∧
    get_dependencies
        (load_data [("Conflicting", [⟨some "A", some "B"⟩])]).dependency_graph
        "A" false = ["B"] := by
  refine ⟨rfl, rfl, rfl⟩

/-! ## C2 — non-recursive dependents are exactly the declaring sources -/

/-- **C2.** For every loaded graph with distinct keys (Python dict keys are
unique) and every feature key `F`, the non-recursive dependents query returns
exactly the keys `G` whose dependency edge list targets `F`: membership in
`get_dependents g F false` is equivalent to `F ∈ g.get(G, [])`. -/
theorem c2_direct_dependents_exact {g : Graph}
    (hnd : (g.map Prod.fst).Nodup) (F G : String) :
    G ∈ get_dependents g F false ↔ F ∈ adj g G := by
  have : get_dependents g F false = revSucc g F := rfl
  rw [this, mem_revSucc_iff, mem_adj_iff hnd]

/-- **C2 witness.** On the concrete graph `{A: [B], C: [B]}`, `A` is reported
as a direct dependent of `B` and indeed declares an edge to `B`. -/
theorem c2_witness :
    "A" ∈ get_dependents [("A", ["B"]), ("C", ["B"])] "B" false ∧
      "B" ∈ adj [("A", ["B"]), ("C", ["B"])] "A" := by
  have h := @c2_direct_dependents_exact [("A", ["B"]), ("C", ["B"])]
    (by decide) "B" "A"
  exact ⟨h.mpr (by decide), by decide⟩

/-! ## C5 — behaviour of the loader on an absent snapshot -/

/-- **C5 counterexample.** Loading `features.json` from an absent snapshot
does not abort with an error: `_load_json` returns the empty-list default, so
the analyzer proceeds over empty data (here: `get_dependencies` runs fine on
the graphs built from nothing and returns `[]`).  This refutes the claim that
an absent snapshot file fails with a `NotFoundError` aborting the
operation. -/
theorem c5_absent_snapshot_returns_default :
    load_json (fun _ => none) "features.json" = .ok (.arr []) ∧
      load_json (fun _ => none) "dependency_graph.json" = .ok (.arr []) ∧
      get_dependencies (load_data []).dependency_graph "FAJ_121_0001" true = [] := by
  refine ⟨?_, ?_, rfl⟩
  · show (if strContains "features.json" "index" = true then
        Except.ok (JsonValue.obj []) else Except.ok (JsonValue.arr [])) = _
    rw [if_neg (by decide)]
  · show (if strContains "dependency_graph.json" "index" = true then
        Except.ok (JsonValue.obj []) else Except.ok (JsonValue.arr [])) = _
    rw [if_neg (by decide)]

/-- **C5 amended.** When the snapshot file is absent, `_load_json` returns an
empty default — `{}` for filenames containing `'index'`, `[]` otherwise — and
never an error; queries then proceed over the empty mapping. -/
theorem c5_amended_load_json_defaults (fs : String → Option JsonValue)
    (filename : String) (habsent : fs filename = none) :
    load_json fs filename =
      .ok (if strContains filename "index" then .obj [] else .arr []) := by
  unfold load_json
  rw [habsent]
  by_cases h : strContains filename "index" = true
  · rw [if_pos h, if_pos h]
  · rw [if_neg h, if_neg h]

/-- **C5 amended witness.** Concrete instances: the dependency-graph snapshot
name yields the empty list, the acronym index name the empty dict. -/
theorem c5_amended_witness :
    load_json (fun _ => none) "dependency_graph.json" = .ok (.arr []) ∧
      load_json (fun _ => none) "index_acronym.json" = .ok (.obj []) := by
  constructor
  · have h := c5_amended_load_json_defaults (fun _ => none) "dependency_graph.json" rfl
    rwa [if_neg (by decide)] at h
  · have h := c5_amended_load_json_defaults (fun _ => none) "index_acronym.json" rfl
    rwa [if_pos (by decide)] at h

/-! ## C6 — symmetric conflict visibility (spec-modelled) -/

/-- **C6.** Conflict lookup is symmetric over a single declared direction: if
`A` declares a Conflicting edge to `B`, then `A ∈ conflictsOf B` and
`B ∈ conflictsOf A`, whether or not `B` declares anything back. -/
theorem c6_conflicts_symmetric {cg : Graph} {A B : String}
    (h : B ∈ adj cg A) :
    A ∈ conflictsOf cg B ∧ B ∈ conflictsOf cg A := by
  unfold conflictsOf
  constructor
  · rw [List.mem_dedup]
    refine List.mem_append_right _ ?_
    unfold adj at h
    cases hl : List.lookup A cg with
    | none => rw [hl] at h; simp at h
    | some l =>
      rw [hl] at h
      exact List.mem_map.mpr
        ⟨(A, l), List.mem_filter.mpr ⟨lookup_mem hl, by simpa using h⟩, rfl⟩
  · rw [List.mem_dedup]
    exact List.mem_append_left _ h

/-- **C6 witness.** `A` declares a conflict with `B` and nothing is declared
on `B`; both queries still see the pair. -/
theorem c6_witness :
    "A" ∈ conflictsOf [("A", ["B"])] "B" ∧ "B" ∈ conflictsOf [("A", ["B"])] "A" :=
  @c6_conflicts_symmetric [("A", ["B"])] "A" "B" (by decide)

/-! ## C10 — recursive traversal results are duplicate-free -/

theorem bfsAux_nodup (succ : String → List String) :
    ∀ (fuel : Nat) (q visited acc : List String), acc.Nodup →
      (∀ x ∈ acc, x ∈ visited) → (bfsAux succ fuel q visited acc).Nodup := by
  intro fuel
  induction fuel with
  | zero =>
    intro q v a ha _
    cases q <;> simpa [bfsAux] using ha
  | succ fuel ih =>
    intro q v a ha hsub
    cases q with
    | nil => simpa [bfsAux] using ha
    | cons c rest =>
      rw [bfsAux]
      by_cases hc : c ∈ v
      · rw [if_pos hc]; exact ih _ _ _ ha hsub
      · rw [if_neg hc]
        refine ih _ _ _ (List.nodup_cons.mpr ⟨fun hca => hc (hsub c hca), ha⟩) ?_
        intro x hx
        rcases List.mem_cons.mp hx with rfl | hx
        · exact List.mem_cons_self _ _
        · exact List.mem_cons_of_mem _ (hsub x hx)

/-- **C10.** The recursive dependency query and the recursive dependents query
each return duplicate-free lists (the visited-set guard admits every feature
key at most once), for every graph — including graphs with repeated targets in
edge lists and graphs with cycles; consequently `impact_count` of the impact
analysis equals the number of distinct entries of the transitive-dependents
list it reports. -/
theorem c10_recursive_results_nodup (features : List (String × FeatureRec))
    (g : Graph) (k : String) :
    (get_dependencies g k true).Nodup ∧ (get_dependents g k true).Nodup ∧
      (get_impact_analysis features g k).impact_count
        = (get_impact_analysis features g k).dependents.toFinset.card := by
  have h1 : (get_dependencies g k true).Nodup := by
    unfold get_dependencies
    exact bfsAux_nodup _ _ _ _ _ (by simp) (by simp)
  have h2 : (get_dependents g k true).Nodup := by
    unfold get_dependents
    exact bfsAux_nodup _ _ _ _ _ (by simp) (by simp)
  refine ⟨h1, h2, ?_⟩
  show (get_dependents g k true).length = (get_dependents g k true).toFinset.card
  rw [List.toFinset_card_of_nodup h2]

/-! ## C9 — coexistence of a two-feature set (spec-modelled) -/

/-- **C9.** For a two-feature request `{A, B}`, `validate` reports
`canCoexist = false` exactly when a Conflicting edge exists between `A` and
`B` in either direction.  The statement quantifies over every dependency
graph `dg` and every conflict graph `cg`, so missing prerequisites (recorded
from `dg`) never flip the verdict, and conflicts of `A` or `B` with features
outside the requested set (other targets in `cg`) never do either. -/
theorem c9_two_feature_coexistence (dg cg : Graph) {A B : String} (hne : A ≠ B) :
    (validate dg cg [A, B]).canCoexist = false ↔
      (B ∈ adj cg A ∨ A ∈ adj cg B) := by
  have hded : ([A, B] : List String).dedup = [A, B] := by
    rw [List.dedup_cons_of_not_mem (by simpa using hne)]
    rfl
  have hcan : (validate dg cg [A, B]).canCoexist
      = ((([A, B] : List String).dedup.flatMap (fun a =>
          ((adj cg a).filter
            (fun b => decide (b ∈ ([A, B] : List String).dedup) && !(b == a))).map
            (normPair a))).dedup).isEmpty := rfl
  rw [hcan, hded, List.isEmpty_eq_false]
  constructor
  · intro hne'
    obtain ⟨x, hx⟩ := List.exists_mem_of_ne_nil _ hne'
    rw [List.mem_dedup, List.mem_flatMap] at hx
    obtain ⟨a, ha, hxa⟩ := hx
    obtain ⟨b, hb, rfl⟩ := List.mem_map.mp hxa
    have hb' := List.mem_filter.mp hb
    have hbmem : b ∈ ([A, B] : List String) ∧ b ≠ a := by
      have := hb'.2
      simp only [Bool.and_eq_true, decide_eq_true_eq, Bool.not_eq_true',
        beq_eq_false_iff_ne] at this
      exact this
    rcases List.mem_cons.mp ha with rfl | ha
    · left
      rcases List.mem_cons.mp hbmem.1 with rfl | hbB
      · exact absurd rfl hbmem.2
      · rcases List.mem_singleton.mp hbB with rfl
        exact hb'.1
    · rcases List.mem_singleton.mp ha with rfl
      right
      rcases List.mem_cons.mp hbmem.1 with rfl | hbB
      · exact hb'.1
      · rcases List.mem_singleton.mp hbB with rfl
        exact absurd rfl hbmem.2
  · intro h
    have hmem : ∃ x, x ∈ (([A, B] : List String).flatMap (fun a =>
        ((adj cg a).filter
          (fun b => decide (b ∈ ([A, B] : List String)) && !(b == a))).map
          (normPair a))).dedup := by
      rcases h with h | h
      · refine ⟨normPair A B, ?_⟩
        rw [List.mem_dedup, List.mem_flatMap]
        refine ⟨A, by simp, List.mem_map.mpr ⟨B, List.mem_filter.mpr ⟨h, ?_⟩, rfl⟩⟩
        simp [hne.symm]
      · refine ⟨normPair B A, ?_⟩
        rw [List.mem_dedup, List.mem_flatMap]
        refine ⟨B, by simp, List.mem_map.mpr ⟨A, List.mem_filter.mpr ⟨h, ?_⟩, rfl⟩⟩
        simp [hne]
    obtain ⟨x, hx⟩ := hmem
    exact List.ne_nil_of_mem hx

/-- **C9 witness.** `M` declares a conflict with `N`; the two-feature request
cannot coexist, and with an empty conflict graph (but a missing prerequisite
of `M` in the dependency graph) it can. -/
theorem c9_witness :
    (validate [] [("M", ["N"])] ["M", "N"]).canCoexist = false ∧
      (validate [("M", ["Q"])] [] ["M", "N"]).canCoexist = true := by
  constructor
  · exact (c9_two_feature_coexistence [] [("M", ["N"])] (by decide)).mpr
      (Or.inl (by decide))
  · decide

/-! ## C7 — the BFS loops drain their queues within the provided fuel -/

theorem sum_le_of_sublist : ∀ {l₁ l₂ : List Nat}, List.Sublist l₁ l₂ →
    l₁.sum ≤ l₂.sum := by
  intro l₁ l₂ h
  induction h with
  | slnil => exact le_refl _
  | cons a _ ih => simpa using le_trans ih (Nat.le_add_left _ _)
  | cons₂ a _ ih => simpa using Nat.add_le_add_left ih a

theorem weightSum_mono (w : String → Nat) (g : Graph) {v v' : List String}
    (hsub : ∀ x ∈ v, x ∈ v') : weightSum w g v' ≤ weightSum w g v := by
  unfold weightSum
  refine sum_le_of_sublist (List.Sublist.map w (List.monotone_filter_right _ ?_))
  intro x hx
  simp only [Bool.not_eq_true', decide_eq_false_iff_not] at hx ⊢
  exact fun hmem => hx (hsub x hmem)

theorem weightSum_nil_le (w : String → Nat) (g : Graph) :
    weightSum w g [] ≤ ((nodesOf g).map w).sum := by
  unfold weightSum
  refine le_trans (le_of_eq ?_) (sum_le_of_sublist (List.Sublist.map w (List.dedup_sublist _)))
  congr 1
  refine congrArg _ (List.filter_eq_self.mpr ?_)
  intro x _
  simp

theorem weightSum_cons (w : String → Nat) (g : Graph) {x : String}
    {v : List String} (hx : x ∈ nodesOf g) (hnv : x ∉ v) :
    weightSum w g v = w x + weightSum w g (x :: v) := by
  unfold weightSum
  have hxf : x ∈ (nodesOf g).dedup.filter (fun y => !decide (y ∈ v)) :=
    List.mem_filter.mpr ⟨List.mem_dedup.mpr hx, by simpa using hnv⟩
  have hnd : ((nodesOf g).dedup.filter (fun y => !decide (y ∈ v))).Nodup :=
    (List.nodup_dedup _).filter _
  have herase : ((nodesOf g).dedup.filter (fun y => !decide (y ∈ v))).erase x
      = (nodesOf g).dedup.filter (fun y => !decide (y ∈ x :: v)) := by
    rw [hnd.erase_eq_filter, List.filter_filter]
    refine List.filter_congr ?_
    intro y _
    by_cases hyx : y = x
    · subst hyx; simp
    · simp [hyx]
  calc (((nodesOf g).dedup.filter (fun y => !decide (y ∈ v))).map w).sum
      = ((x :: ((nodesOf g).dedup.filter (fun y => !decide (y ∈ v))).erase x).map w).sum :=
        ((List.perm_cons_erase hxf).map w).sum_eq
    _ = w x + (((nodesOf g).dedup.filter (fun y => !decide (y ∈ x :: v))).map w).sum := by
        rw [herase]; simp

/-- With enough fuel — more than the queue length plus the weight of the
unvisited nodes — the result of the BFS loop does not depend on the exact
amount of fuel: the loop drains its queue before the fuel can run out. -/
theorem bfsAux_fuel_eq (succ : String → List String) (g : Graph)
    (hsucc : ∀ x y, y ∈ succ x → y ∈ nodesOf g) :
    ∀ fuel₁ fuel₂ q visited acc,
      (∀ x ∈ q, x ∈ nodesOf g) →
      q.length + weightSum (fun x => 1 + (succ x).length) g visited ≤ fuel₁ →
      q.length + weightSum (fun x => 1 + (succ x).length) g visited ≤ fuel₂ →
      bfsAux succ fuel₁ q visited acc = bfsAux succ fuel₂ q visited acc := by
  intro fuel₁
  induction fuel₁ with
  | zero =>
    intro fuel₂ q v a hq h1 _
    have hqnil : q = [] := by
      cases q with
      | nil => rfl
      | cons c rest => simp at h1
    subst hqnil
    cases fuel₂ <;> rfl
  | succ f ih =>
    intro fuel₂ q v a hq h1 h2
    cases q with
    | nil => cases fuel₂ <;> rfl
    | cons c rest =>
      obtain ⟨f₂, rfl⟩ : ∃ f₂, fuel₂ = f₂ + 1 :=
        ⟨fuel₂ - 1, by simp at h2; omega⟩
      show (if c ∈ v then bfsAux succ f rest v a
          else bfsAux succ f
            (rest ++ (succ c).filter (fun d => !decide (d ∈ c :: v))) (c :: v) (c :: a))
        = (if c ∈ v then bfsAux succ f₂ rest v a
          else bfsAux succ f₂
            (rest ++ (succ c).filter (fun d => !decide (d ∈ c :: v))) (c :: v) (c :: a))
      by_cases hc : c ∈ v
      · rw [if_pos hc, if_pos hc]
        refine ih f₂ rest v a (fun x hx => hq x (List.mem_cons_of_mem _ hx)) ?_ ?_ <;>
          · simp only [List.length_cons] at h1 h2; omega
      · rw [if_neg hc, if_neg hc]
        have hcnode : c ∈ nodesOf g := hq c (List.mem_cons_self _ _)
        have hw := weightSum_cons (fun x => 1 + (succ x).length) g hcnode hc
        have hpush : ((succ c).filter (fun d => !decide (d ∈ c :: v))).length
            ≤ (succ c).length := List.length_filter_le _ _
        have hlen : (rest ++ (succ c).filter (fun d => !decide (d ∈ c :: v))).length
            = rest.length + ((succ c).filter (fun d => !decide (d ∈ c :: v))).length :=
          List.length_append _ _
        refine ih f₂ _ (c :: v) (c :: a) ?_ ?_ ?_
        · intro x hx
          rcases List.mem_append.mp hx with hx | hx
          · exact hq x (List.mem_cons_of_mem _ hx)
          · exact hsucc c x (List.mem_filter.mp hx).1
        · rw [hlen]
          simp only [List.length_cons] at h1
          have hw' : weightSum (fun x => 1 + (succ x).length) g v
              = 1 + (succ c).length
                + weightSum (fun x => 1 + (succ x).length) g (c :: v) := by
            simpa using hw
          omega
        · rw [hlen]
          simp only [List.length_cons] at h2
          have hw' : weightSum (fun x => 1 + (succ x).length) g v
              = 1 + (succ c).length
                + weightSum (fun x => 1 + (succ x).length) g (c :: v) := by
            simpa using hw
          omega

/-- **C7.** Both recursive traversals halt on every finite graph, cycles
included: the fuel the wrappers pass to the BFS loop — a bound computed from
the number of (not necessarily distinct) node occurrences of the graph — is
already enough for the queue to drain, so granting any additional amount of
fuel leaves the result of `get_dependencies(·, recursive=True)` and of
`get_dependents(·, recursive=True)` unchanged.  The visited-set guard makes
revisits impossible, bounding the traversal by the node count. -/
theorem c7_recursive_traversals_terminate (g : Graph) (k : String) (extra : Nat) :
    bfsAux (adj g) (depsFuel g k + extra) (adj g k) [] []
        = get_dependencies g k true ∧
      bfsAux (revSucc g) (dependentsFuel g k + extra) (revSucc g k) [] []
        = get_dependents g k true := by
  constructor
  · have hdef : get_dependencies g k true
        = bfsAux (adj g) (depsFuel g k) (adj g k) [] [] := rfl
    rw [hdef]
    have hbound : (adj g k).length
        + weightSum (fun x => 1 + (adj g x).length) g [] ≤ depsFuel g k := by
      unfold depsFuel
      exact Nat.add_le_add_left (weightSum_nil_le _ g) _
    exact bfsAux_fuel_eq (adj g) g (fun x y h => adj_subset_nodesOf h) _ _ _ _ _
      (fun x hx => adj_subset_nodesOf hx) (le_trans hbound (Nat.le_add_right _ _)) hbound
  · have hdef : get_dependents g k true
        = bfsAux (revSucc g) (dependentsFuel g k) (revSucc g k) [] [] := rfl
    rw [hdef]
    have hbound : (revSucc g k).length
        + weightSum (fun x => 1 + (revSucc g x).length) g [] ≤ dependentsFuel g k := by
      unfold dependentsFuel
      exact Nat.add_le_add_left (weightSum_nil_le _ g) _
    exact bfsAux_fuel_eq (revSucc g) g
      (fun x y h => keys_subset_nodesOf (revSucc_subset_keys h)) _ _ _ _ _
      (fun x hx => keys_subset_nodesOf (revSucc_subset_keys hx))
      (le_trans hbound (Nat.le_add_right _ _)) hbound

/-! ## C3 — order of the flattened recursive prerequisite listing -/

theorem bfsAux_nil (succ : String → List String) (fuel : Nat)
    (visited acc : List String) : bfsAux succ fuel [] visited acc = acc.reverse := by
  cases fuel <;> rfl

theorem bfsAux_cons_not_mem (succ : String → List String) (fuel : Nat)
    {c : String} (rest : List String) {visited : List String} (acc : List String)
    (h : c ∉ visited) :
    bfsAux succ (fuel + 1) (c :: rest) visited acc
      = bfsAux succ fuel
          (rest ++ (succ c).filter (fun d => !decide (d ∈ c :: visited)))
          (c :: visited) (c :: acc) := by
  show (if c ∈ visited then bfsAux succ fuel rest visited acc else _) = _
  rw [if_neg h]

/-- **C3 counterexample.** On the chain `A → B → C` (both edges declared as
prerequisites), the flat recursive listing of `A` is `["B", "C"]` — direct
prerequisite first — not the deepest-first `["C", "B"]` the claim states. -/
theorem c3_counterexample :
    get_dependencies [("A", ["B"]), ("B", ["C"])] "A" true = ["B", "C"] ∧
      get_dependencies [("A", ["B"]), ("B", ["C"])] "A" true ≠ ["C", "B"] := by
  constructor <;> decide

/-- **C3 amended.** The flattened recursive prerequisite listing is ordered
breadth-first (shallowest-first) with the queried feature itself excluded:
for every chain where `A` declares Prerequisite `B` and `B` declares
Prerequisite `C` (pairwise distinct), the flat prerequisite list of `A` is
`[B, C]` — each feature before the deeper prerequisites discovered through
it, de-duplicated by first occurrence. -/
theorem c3_amended_chain_is_breadth_first (A B C : String)
    (hAB : A ≠ B) (hBC : B ≠ C) (hAC : A ≠ C) :
    get_dependencies [(A, [B]), (B, [C])] A true = [B, C] := by
  have hadjA : adj [(A, [B]), (B, [C])] A = [B] := by
    simp [adj, List.lookup_cons]
  have hadjB : adj [(A, [B]), (B, [C])] B = [C] := by
    have h1 : (B == A) = false := beq_eq_false_iff_ne.mpr (Ne.symm hAB)
    simp [adj, List.lookup_cons, h1]
  have hadjC : adj [(A, [B]), (B, [C])] C = [] := by
    have h1 : (C == A) = false := beq_eq_false_iff_ne.mpr (Ne.symm hAC)
    have h2 : (C == B) = false := beq_eq_false_iff_ne.mpr (Ne.symm hBC)
    simp [adj, List.lookup_cons, h1, h2]
  have hfuel : depsFuel [(A, [B]), (B, [C])] A = 8 := by
    simp [depsFuel, nodesOf, hadjA, hadjB, hadjC]
  have hstart : get_dependencies [(A, [B]), (B, [C])] A true
      = bfsAux (adj [(A, [B]), (B, [C])]) (depsFuel [(A, [B]), (B, [C])] A)
          (adj [(A, [B]), (B, [C])] A) [] [] := rfl
  rw [hstart, hfuel, hadjA, show (8 : Nat) = 7 + 1 from rfl,
    bfsAux_cons_not_mem _ _ _ _ (List.not_mem_nil B)]
  have hfilterB : (adj [(A, [B]), (B, [C])] B).filter
      (fun d => !decide (d ∈ ([B] : List String))) = [C] := by
    rw [hadjB]
    have hCB : C ∉ ([B] : List String) := by simp [Ne.symm hBC]
    simp [hCB, Ne.symm hBC]
  rw [List.nil_append, hfilterB, show (7 : Nat) = 6 + 1 from rfl,
    bfsAux_cons_not_mem _ _ _ _ (by simp [Ne.symm hBC])]
  have hfilterC : (adj [(A, [B]), (B, [C])] C).filter
      (fun d => !decide (d ∈ ([C, B] : List String))) = [] := by
    rw [hadjC]; rfl
  rw [List.nil_append, hfilterC, bfsAux_nil]
  rfl

/-- **C3 amended witness.** The chain instance with concrete keys. -/
theorem c3_amended_witness :
    get_dependencies [("A", ["B"]), ("B", ["C"])] "A" true = ["B", "C"] :=
  c3_amended_chain_is_breadth_first "A" "B" "C" (by decide) (by decide) (by decide)

/-! ## C8 — activation ordering is a function of the requested set -/

theorem strLe_total (a b : String) : strLe a b = true ∨ strLe b a = true := by
  unfold strLe
  rcases le_total a.data b.data with h | h <;> simp [h]

theorem strLe_antisymm {a b : String} (h1 : strLe a b = true)
    (h2 : strLe b a = true) : a = b := by
  unfold strLe at h1 h2
  have hd : a.data = b.data :=
    le_antisymm (of_decide_eq_true h1) (of_decide_eq_true h2)
  exact congrArg String.mk hd

theorem strLe_trans {a b c : String} (h1 : strLe a b = true)
    (h2 : strLe b c = true) : strLe a c = true := by
  unfold strLe at h1 h2 ⊢
  exact decide_eq_true_eq.mpr
    (le_trans (of_decide_eq_true h1) (of_decide_eq_true h2))

theorem leKey_total (names : String → String) (a b : String) :
    leKey names a b = true ∨ leKey names b a = true := by
  unfold leKey
  by_cases h : names a = names b
  · rw [if_pos h, if_pos h.symm]
    exact strLe_total a b
  · rw [if_neg h, if_neg (Ne.symm h)]
    exact strLe_total (names a) (names b)

theorem leKey_antisymm {names : String → String} {a b : String}
    (h1 : leKey names a b = true) (h2 : leKey names b a = true) : a = b := by
  unfold leKey at h1 h2
  by_cases h : names a = names b
  · rw [if_pos h] at h1
    rw [if_pos h.symm] at h2
    exact strLe_antisymm h1 h2
  · rw [if_neg h] at h1
    rw [if_neg (Ne.symm h)] at h2
    exact absurd (strLe_antisymm h1 h2) h

theorem leKey_trans {names : String → String} {a b c : String}
    (h1 : leKey names a b = true) (h2 : leKey names b c = true) :
    leKey names a c = true := by
  unfold leKey at h1 h2 ⊢
  by_cases hab : names a = names b <;> by_cases hbc : names b = names c
  · rw [if_pos hab] at h1
    rw [if_pos hbc] at h2
    rw [if_pos (hab.trans hbc)]
    exact strLe_trans h1 h2
  · rw [if_pos hab] at h1
    rw [if_neg hbc] at h2
    rw [if_neg (fun hac => hbc (hab.symm.trans hac)), hab]
    exact h2
  · rw [if_neg hab] at h1
    rw [if_pos hbc] at h2
    rw [if_neg (fun hac => hab (hac.trans hbc.symm)), ← hbc]
    exact h1
  · rw [if_neg hab] at h1
    rw [if_neg hbc] at h2
    have hac : names a ≠ names c := by
      intro hac
      exact hab (strLe_antisymm h1 (hac ▸ h2))
    rw [if_neg hac]
    exact strLe_trans h1 h2

theorem minKey_comm (names : String → String) (a b : String) :
    minKey names a b = minKey names b a := by
  unfold minKey
  by_cases h1 : leKey names a b = true <;> by_cases h2 : leKey names b a = true
  · rw [if_pos h1, if_pos h2]
    exact leKey_antisymm h1 h2
  · rw [if_pos h1, if_neg h2]
  · rw [if_neg h1, if_pos h2]
  · exact absurd (leKey_total names a b) (by simp [h1, h2])

theorem minKey_left_comm (names : String → String) (a b c : String) :
    minKey names a (minKey names b c) = minKey names b (minKey names a c) := by
  unfold minKey
  by_cases hbc : leKey names b c = true
  · rw [if_pos hbc]
    by_cases hac : leKey names a c = true
    · rw [if_pos hac]
      by_cases hab : leKey names a b = true
      · rw [if_pos hab]
        by_cases hba : leKey names b a = true
        · rw [if_pos hba]
          exact leKey_antisymm hab hba
        · rw [if_neg hba]
      · rw [if_neg hab]
        have hba : leKey names b a = true :=
          (leKey_total names a b).resolve_left hab
        rw [if_pos hba]
    · rw [if_neg hac]
      have hab : ¬ leKey names a b = true := fun hab => hac (leKey_trans hab hbc)
      rw [if_neg hab, if_pos hbc]
  · rw [if_neg hbc]
    by_cases hac : leKey names a c = true
    · rw [if_pos hac]
      have hba : ¬ leKey names b a = true := fun hba => hbc (leKey_trans hba hac)
      rw [if_neg hba]
    · rw [if_neg hac, if_neg hbc]

theorem pickMin_perm (names : String → String) :
    ∀ {l₁ l₂ : List String}, List.Perm l₁ l₂ →
      pickMin names l₁ = pickMin names l₂ := by
  intro l₁ l₂ h
  induction h with
  | nil => rfl
  | cons x h ih =>
    rename_i t₁ t₂
    rw [show pickMin names (x :: t₁)
        = (match pickMin names t₁ with
           | none => some x
           | some m => some (minKey names x m)) from rfl,
      show pickMin names (x :: t₂)
        = (match pickMin names t₂ with
           | none => some x
           | some m => some (minKey names x m)) from rfl,
      ih]
  | swap x y l =>
    rw [show pickMin names (y :: x :: l)
        = (match (match pickMin names l with
             | none => some x
             | some m => some (minKey names x m)) with
           | none => some y
           | some m => some (minKey names y m)) from rfl,
      show pickMin names (x :: y :: l)
        = (match (match pickMin names l with
             | none => some y
             | some m => some (minKey names y m)) with
           | none => some x
           | some m => some (minKey names x m)) from rfl]
    cases pickMin names l with
    | none => simp [minKey_comm names y x]
    | some m => simp [minKey_left_comm names y x m]
  | trans _ _ ih1 ih2 => exact ih1.trans ih2

theorem kahnAux_perm (g : Graph) (names : String → String) :
    ∀ (fuel : Nat) {nodes₁ nodes₂ remaining₁ remaining₂ : List String}
      (acc : List String),
      List.Perm nodes₁ nodes₂ → List.Perm remaining₁ remaining₂ →
      kahnAux g names nodes₁ fuel remaining₁ acc
        = kahnAux g names nodes₂ fuel remaining₂ acc := by
  intro fuel
  induction fuel with
  | zero => intros; rfl
  | succ f ih =>
    intro n₁ n₂ r₁ r₂ acc hn hr
    have hpred : (fun n => (adj g n).all
          (fun p => !(decide (p ∈ n₂) && decide (p ∈ r₂))))
        = (fun n => (adj g n).all
          (fun p => !(decide (p ∈ n₁) && decide (p ∈ r₁)))) := by
      funext n
      have : (fun p => !(decide (p ∈ n₂) && decide (p ∈ r₂)))
          = (fun p => !(decide (p ∈ n₁) && decide (p ∈ r₁))) := by
        funext p
        rw [decide_eq_decide.mpr hn.mem_iff.symm, decide_eq_decide.mpr hr.mem_iff.symm]
      rw [this]
    show (match pickMin names (r₁.filter _) with
        | none => acc.reverse
        | some m => kahnAux g names n₁ f (r₁.erase m) (m :: acc))
      = (match pickMin names (r₂.filter _) with
        | none => acc.reverse
        | some m => kahnAux g names n₂ f (r₂.erase m) (m :: acc))
    rw [hpred]
    have helig : List.Perm
        (r₁.filter (fun n => (adj g n).all
          (fun p => !(decide (p ∈ n₁) && decide (p ∈ r₁)))))
        (r₂.filter (fun n => (adj g n).all
          (fun p => !(decide (p ∈ n₁) && decide (p ∈ r₁))))) := hr.filter _
    rw [pickMin_perm names helig]
    cases pickMin names (r₂.filter (fun n => (adj g n).all
        (fun p => !(decide (p ∈ n₁) && decide (p ∈ r₁))))) with
    | none => rfl
    | some m => exact ih _ hn (hr.erase m)

/-- **C8.** The activation sequence is a function of the requested set, not of
the input order: permuting the requested key list leaves the output of
`order` unchanged, because the candidate pool is compared as a set and every
selection step picks the least eligible node under the deterministic
name-ascending comparison. -/
theorem c8_order_permutation_invariant (g : Graph) (names : String → String)
    {r₁ r₂ : List String} (h : List.Perm r₁ r₂) :
    order g names r₁ = order g names r₂ := by
  have hnodes : List.Perm
      (r₁.flatMap (fun k => k :: get_dependencies g k true)).dedup
      (r₂.flatMap (fun k => k :: get_dependencies g k true)).dedup :=
    (h.flatMap_right _).dedup
  show kahnAux g names ((r₁.flatMap (fun k => k :: get_dependencies g k true)).dedup)
      ((r₁.flatMap (fun k => k :: get_dependencies g k true)).dedup).length
      ((r₁.flatMap (fun k => k :: get_dependencies g k true)).dedup) []
    = kahnAux g names ((r₂.flatMap (fun k => k :: get_dependencies g k true)).dedup)
      ((r₂.flatMap (fun k => k :: get_dependencies g k true)).dedup).length
      ((r₂.flatMap (fun k => k :: get_dependencies g k true)).dedup) []
  rw [hnodes.length_eq]
  exact kahnAux_perm g names _ [] hnodes hnodes

/-- **C8 witness.** `X` and `Y` both require `P`; both input orders produce
the same activation sequence. -/
theorem c8_witness :
    order [("X", ["P"]), ("Y", ["P"])] (fun k => k) ["Y", "X"]
        = order [("X", ["P"]), ("Y", ["P"])] (fun k => k) ["X", "Y"] ∧
      order [("X", ["P"]), ("Y", ["P"])] (fun k => k) ["X", "Y"]
        = ["P", "X", "Y"] :=
  ⟨c8_order_permutation_invariant _ _ (by decide), by decide⟩

/-! ## C4 — cycle detection: basic DFS lemmas -/

theorem dfs_neighbors_succ_cons (g : Graph) (f : Nat) (n : String)
    (rest stack visited : List String) :
    dfs_neighbors g (f + 1) (n :: rest) stack visited
      = if n ∈ visited then
          if n ∈ stack then (visited, some (stack.dropWhile (fun x => x != n) ++ [n]))
          else dfs_neighbors g f rest stack visited
        else match dfs_neighbors g f (adj g n) (stack ++ [n]) (n :: visited) with
          | (v', some c) => (v', some c)
          | (v', none) => dfs_neighbors g f rest stack v' := rfl

theorem find_cycles_go_cons (g : Graph) (node : String)
    (rest visited : List String) (cycles : List (List String)) :
    find_cycles_go g (node :: rest) visited cycles
      = if node ∈ visited then find_cycles_go g rest visited cycles
        else match dfs_cycle g (cycleFuel g) node [] visited with
          | (v', some c) =>
            find_cycles_go g rest v' (if c ∈ cycles then cycles else cycles ++ [c])
          | (v', none) => find_cycles_go g rest v' cycles := rfl

theorem dfs_neighbors_visited_extends (g : Graph) :
    ∀ (fuel : Nat) (ns stack visited : List String),
      ∃ new, (dfs_neighbors g fuel ns stack visited).1 = new ++ visited := by
  intro fuel
  induction fuel with
  | zero => intro ns stack visited; exact ⟨[], rfl⟩
  | succ f ih =>
    intro ns stack visited
    cases ns with
    | nil => exact ⟨[], rfl⟩
    | cons n rest =>
      rw [dfs_neighbors_succ_cons]
      by_cases hnv : n ∈ visited
      · rw [if_pos hnv]
        by_cases hnst : n ∈ stack
        · rw [if_pos hnst]; exact ⟨[], rfl⟩
        · rw [if_neg hnst]; exact ih rest stack visited
      · rw [if_neg hnv]
        rcases hcall : dfs_neighbors g f (adj g n) (stack ++ [n]) (n :: visited)
          with ⟨v₁, copt⟩
        obtain ⟨new₁, hnew₁⟩ := ih (adj g n) (stack ++ [n]) (n :: visited)
        rw [hcall] at hnew₁
        have hnew₁' : v₁ = new₁ ++ n :: visited := by simpa using hnew₁
        cases copt with
        | some c =>
          refine ⟨new₁ ++ [n], ?_⟩
          simp only [hcall]
          rw [hnew₁']
          simp
        | none =>
          obtain ⟨new₂, hnew₂⟩ := ih rest stack v₁
          refine ⟨new₂ ++ (new₁ ++ [n]), ?_⟩
          simp only [hcall]
          rw [hnew₂, hnew₁']
          simp

theorem dfs_neighbors_nodup (g : Graph) :
    ∀ (fuel : Nat) (ns stack visited : List String), visited.Nodup →
      (dfs_neighbors g fuel ns stack visited).1.Nodup := by
  intro fuel
  induction fuel with
  | zero => intro ns stack visited h; exact h
  | succ f ih =>
    intro ns stack visited h
    cases ns with
    | nil => exact h
    | cons n rest =>
      rw [dfs_neighbors_succ_cons]
      by_cases hnv : n ∈ visited
      · rw [if_pos hnv]
        by_cases hnst : n ∈ stack
        · rw [if_pos hnst]; exact h
        · rw [if_neg hnst]; exact ih rest stack visited h
      · rw [if_neg hnv]
        rcases hcall : dfs_neighbors g f (adj g n) (stack ++ [n]) (n :: visited)
          with ⟨v₁, copt⟩
        have hv₁ : v₁.Nodup := by
          have := ih (adj g n) (stack ++ [n]) (n :: visited)
            (List.nodup_cons.mpr ⟨hnv, h⟩)
          rwa [hcall] at this
        cases copt with
        | some c => exact hv₁
        | none => exact ih rest stack v₁ hv₁

theorem find_cycles_go_extends (g : Graph) :
    ∀ (roots visited : List String) (cycles : List (List String)),
      ∃ more, find_cycles_go g roots visited cycles = cycles ++ more := by
  intro roots
  induction roots with
  | nil => intro visited cycles; exact ⟨[], by simp [find_cycles_go]⟩
  | cons node rest ih =>
    intro visited cycles
    rw [find_cycles_go_cons]
    by_cases hnv : node ∈ visited
    · rw [if_pos hnv]; exact ih visited cycles
    · rw [if_neg hnv]
      rcases hcall : dfs_cycle g (cycleFuel g) node [] visited with ⟨v', copt⟩
      cases copt with
      | some c =>
        simp only [hcall]
        by_cases hc : c ∈ cycles
        · rw [if_pos hc]
          exact ih v' cycles
        · rw [if_neg hc]
          obtain ⟨more, hmore⟩ := ih v' (cycles ++ [c])
          exact ⟨[c] ++ more, by rw [hmore, List.append_assoc]⟩
      | none =>
        simp only [hcall]
        exact ih v' cycles

/-! ## C4 — soundness: every reported cycle is a real cycle -/

theorem dropWhile_ne_mem {n : String} :
    ∀ {l : List String}, n ∈ l →
      ∃ t, l.dropWhile (fun x => x != n) = n :: t := by
  intro l
  induction l with
  | nil => intro h; simp at h
  | cons c t ih =>
    intro h
    by_cases hcn : c = n
    · subst hcn
      exact ⟨t, by simp [List.dropWhile_cons]⟩
    · rcases List.mem_cons.mp h with rfl | h
      · exact absurd rfl (Ne.symm hcn)
      · obtain ⟨t', ht'⟩ := ih h
        refine ⟨t', ?_⟩
        rw [List.dropWhile_cons, if_pos (by simpa [bne_iff_ne] using hcn)]
        exact ht'

theorem chain_reaches {g : Graph} :
    ∀ (l : List String) (a b : String),
      List.Chain' (Edge g) (a :: l) → b ∈ l →
      Relation.TransGen (Edge g) a b := by
  intro l
  induction l with
  | nil => intro a b _ h; simp at h
  | cons c t ih =>
    intro a b hch hb
    have hac : Edge g a c := (List.chain'_cons.mp hch).1
    have hct : List.Chain' (Edge g) (c :: t) := (List.chain'_cons.mp hch).2
    rcases List.mem_cons.mp hb with rfl | hb
    · exact Relation.TransGen.single hac
    · exact Relation.TransGen.head hac (ih c b hct hb)

theorem cycle_from_stack {g : Graph} {stack : List String} {cur n : String}
    (hch : List.Chain' (Edge g) stack) (hlast : stack.getLast? = some cur)
    (hn : n ∈ stack) (hedge : Edge g cur n) :
    ∃ x, Relation.TransGen (Edge g) x x := by
  obtain ⟨t, ht⟩ := dropWhile_ne_mem hn
  have hsuf : List.IsSuffix (n :: t) stack := ht ▸ List.dropWhile_suffix _
  have hch' : List.Chain' (Edge g) (n :: t) := hch.suffix hsuf
  obtain ⟨pre, hpre⟩ := hsuf
  have hlast' : (n :: t).getLast? = some cur := by
    rw [← hpre, List.getLast?_append_of_ne_nil _ (by simp)] at hlast
    exact hlast
  cases t with
  | nil =>
    have hcur : n = cur := by simpa using hlast'
    exact ⟨n, Relation.TransGen.single (hcur ▸ hedge)⟩
  | cons c t' =>
    have hcur_mem : cur ∈ c :: t' := by
      refine List.mem_of_mem_getLast? ?_
      rwa [List.getLast?_cons_cons] at hlast'
    exact ⟨n, Relation.TransGen.tail (chain_reaches (c :: t') n cur hch' hcur_mem) hedge⟩

theorem dfs_neighbors_sound (g : Graph) :
    ∀ (fuel : Nat) (ns stack visited v' : List String) (c : List String)
      (cur : String),
      dfs_neighbors g fuel ns stack visited = (v', some c) →
      List.Chain' (Edge g) stack → stack.getLast? = some cur →
      (∀ n ∈ ns, Edge g cur n) →
      ∃ x, Relation.TransGen (Edge g) x x := by
  intro fuel
  induction fuel with
  | zero => intro ns stack visited v' c cur hres _ _ _; simp [dfs_neighbors] at hres
  | succ f ih =>
    intro ns stack visited v' c cur hres hch hlast hedges
    cases ns with
    | nil => simp [dfs_neighbors] at hres
    | cons n rest =>
      rw [dfs_neighbors_succ_cons] at hres
      by_cases hnv : n ∈ visited
      · rw [if_pos hnv] at hres
        by_cases hnst : n ∈ stack
        · exact cycle_from_stack hch hlast hnst (hedges n (List.mem_cons_self _ _))
        · rw [if_neg hnst] at hres
          exact ih rest stack visited v' c cur hres hch hlast
            (fun m hm => hedges m (List.mem_cons_of_mem _ hm))
      · rw [if_neg hnv] at hres
        rcases hcall : dfs_neighbors g f (adj g n) (stack ++ [n]) (n :: visited)
          with ⟨v₁, copt⟩
        rw [hcall] at hres
        cases copt with
        | some c₁ =>
          refine ih (adj g n) (stack ++ [n]) (n :: visited) v₁ c₁ n hcall ?_ ?_
            (fun m hm => hm)
          · rw [List.chain'_append]
            refine ⟨hch, List.chain'_singleton n, ?_⟩
            intro x hx y hy
            simp only [List.head?_cons, Option.mem_def, Option.some.injEq] at hy
            subst hy
            have hx' : x = cur := by
              rw [Option.mem_def, hlast] at hx
              exact (Option.some.injEq _ _ ▸ hx).symm ▸ rfl
            rw [hx']
            exact hedges n (List.mem_cons_self _ _)
          · rw [List.getLast?_append_of_ne_nil _ (by simp)]
            rfl
        | none =>
          exact ih rest stack v₁ v' c cur hres hch hlast
            (fun m hm => hedges m (List.mem_cons_of_mem _ hm))

theorem find_cycles_go_sound (g : Graph) :
    ∀ (roots visited : List String),
      find_cycles_go g roots visited [] ≠ [] →
      ∃ x, Relation.TransGen (Edge g) x x := by
  intro roots
  induction roots with
  | nil => intro visited h; exact absurd rfl h
  | cons node rest ih =>
    intro visited h
    rw [find_cycles_go_cons] at h
    by_cases hnv : node ∈ visited
    · rw [if_pos hnv] at h
      exact ih visited h
    · rw [if_neg hnv] at h
      obtain ⟨f, hf⟩ : ∃ f, cycleFuel g = f + 1 :=
        ⟨cycleFuel g - 1, by unfold cycleFuel; omega⟩
      have hunf : dfs_cycle g (cycleFuel g) node [] visited
          = dfs_neighbors g f (adj g node) [node] (node :: visited) := by
        rw [hf]; rfl
      rcases hcall : dfs_neighbors g f (adj g node) [node] (node :: visited)
        with ⟨v₁, copt⟩
      rw [hunf, hcall] at h
      cases copt with
      | some c =>
        exact dfs_neighbors_sound g f (adj g node) [node] (node :: visited) v₁ c
          node hcall (List.chain'_singleton node) rfl (fun m hm => hm)
      | none => exact ih v₁ h

/-! ## C4 — completeness: a clean DFS run certifies a topological order -/

theorem cycleWeight_cons {g : Graph} {n : String} {v : List String}
    (hn : n ∈ nodesOf g) (hnv : n ∉ v) :
    cycleWeight g v = (2 + (adj g n).length) + cycleWeight g (n :: v) :=
  weightSum_cons _ g hn hnv

theorem cycleWeight_mono {g : Graph} {v v' : List String}
    (h : ∀ x ∈ v, x ∈ v') : cycleWeight g v' ≤ cycleWeight g v :=
  weightSum_mono _ g h

theorem dfs_neighbors_cert (g : Graph) :
    ∀ (fuel : Nat) (ns stack visited v' : List String),
      dfs_neighbors g fuel ns stack visited = (v', none) →
      1 + ns.length + cycleWeight g visited ≤ fuel →
      (∀ n ∈ ns, n ∈ nodesOf g) →
      (∀ s ∈ stack, s ∈ visited) →
      ∃ M new, v' = new ++ visited ∧ List.Perm M new ∧
        (∀ x ∈ ns, x ∈ M ∨ (x ∈ visited ∧ x ∉ stack)) ∧
        TopoAfter g M stack visited := by
  intro fuel
  induction fuel with
  | zero => intro ns stack visited v' _ hsuf _ _; exact absurd hsuf (by omega)
  | succ f ih =>
    intro ns stack visited v' hres hsuf hns hstack
    cases ns with
    | nil =>
      have hres' : (visited, (none : Option (List String))) = (v', none) := hres
      injection hres' with h1 _
      subst h1
      refine ⟨[], [], rfl, List.Perm.refl _, by simp, ?_⟩
      intro P a S hsplit
      exact absurd hsplit (by simp)
    | cons n rest =>
      rw [dfs_neighbors_succ_cons] at hres
      by_cases hnv : n ∈ visited
      · rw [if_pos hnv] at hres
        by_cases hnst : n ∈ stack
        · rw [if_pos hnst] at hres
          injection hres with _ h2
          exact Option.noConfusion h2
        · rw [if_neg hnst] at hres
          obtain ⟨M, new, hv, hperm, hnsprop, htopo⟩ :=
            ih rest stack visited v' hres
              (by simp only [List.length_cons] at hsuf; omega)
              (fun m hm => hns m (List.mem_cons_of_mem _ hm)) hstack
          refine ⟨M, new, hv, hperm, ?_, htopo⟩
          intro x hx
          rcases List.mem_cons.mp hx with rfl | hx
          · exact Or.inr ⟨hnv, hnst⟩
          · exact hnsprop x hx
      · rw [if_neg hnv] at hres
        rcases hcall : dfs_neighbors g f (adj g n) (stack ++ [n]) (n :: visited)
          with ⟨v₁, copt⟩
        rw [hcall] at hres
        cases copt with
        | some c =>
          injection hres with _ h2
          exact Option.noConfusion h2
        | none =>
          have hnnode : n ∈ nodesOf g := hns n (List.mem_cons_self _ _)
          have hwcons := cycleWeight_cons hnnode hnv
          obtain ⟨M₁, new₁, hv₁, hperm₁, hadjprop, htopo₁⟩ :=
            ih (adj g n) (stack ++ [n]) (n :: visited) v₁ hcall
              (by simp only [List.length_cons] at hsuf; omega)
              (fun m hm => adj_subset_nodesOf hm)
              (by
                intro s hs
                rcases List.mem_append.mp hs with hs | hs
                · exact List.mem_cons_of_mem _ (hstack s hs)
                · simp only [List.mem_singleton] at hs
                  subst hs
                  exact List.mem_cons_self _ _)
          have hsubv₁ : ∀ x ∈ (n :: visited), x ∈ v₁ := by
            intro x hx
            rw [hv₁]
            exact List.mem_append_right _ hx
          have hwmono : cycleWeight g v₁ ≤ cycleWeight g (n :: visited) :=
            cycleWeight_mono hsubv₁
          obtain ⟨M₂, new₂, hv₂, hperm₂, hrestprop, htopo₂⟩ :=
            ih rest stack v₁ v' hres
              (by simp only [List.length_cons] at hsuf; omega)
              (fun m hm => hns m (List.mem_cons_of_mem _ hm))
              (fun s hs => hsubv₁ s (List.mem_cons_of_mem _ (hstack s hs)))
          refine ⟨M₂ ++ (n :: M₁), new₂ ++ (new₁ ++ [n]), ?_, ?_, ?_, ?_⟩
          · rw [hv₂, hv₁]
            simp [List.append_assoc]
          · refine List.Perm.append hperm₂ ?_
            exact List.Perm.trans (hperm₁.cons n) (List.perm_append_singleton n new₁).symm
          · intro x hx
            rcases List.mem_cons.mp hx with rfl | hx
            · exact Or.inl (List.mem_append_right _ (List.mem_cons_self _ _))
            · rcases hrestprop x hx with hxM | ⟨hxv₁, hxst⟩
              · exact Or.inl (List.mem_append_left _ hxM)
              · rw [hv₁] at hxv₁
                rcases List.mem_append.mp hxv₁ with hxn | hxn
                · exact Or.inl (List.mem_append_right _
                    (List.mem_cons_of_mem _ (hperm₁.mem_iff.mpr hxn)))
                · rcases List.mem_cons.mp hxn with rfl | hxv
                  · exact Or.inl (List.mem_append_right _ (List.mem_cons_self _ _))
                  · exact Or.inr ⟨hxv, hxst⟩
          · intro P a S hsplit b hb
            rcases List.append_eq_append_iff.mp hsplit with
              ⟨a', ha'P, ha'M⟩ | ⟨c', hc'M, hc'S⟩
            · -- P = M₂ ++ a' and n :: M₁ = a' ++ a :: S : inside the block
              cases a' with
              | nil =>
                -- junction: a = n, S = M₁
                simp only [List.nil_append] at ha'M
                injection ha'M with han hSM
                subst han
                subst hSM
                rcases hadjprop b hb with hbM₁ | ⟨hbv, hbst⟩
                · exact Or.inl hbM₁
                · rcases List.mem_cons.mp hbv with rfl | hbv'
                  · exact absurd (List.mem_append_right _ (List.mem_singleton.mpr rfl)) hbst
                  · exact Or.inr ⟨hbv', fun hbs => hbst (List.mem_append_left _ hbs)⟩
              | cons a0 a'' =>
                -- inside M₁
                injection ha'M with hna0 hM₁
                subst hna0
                rcases htopo₁ a'' a S hM₁ b hb with hbS | ⟨hbv, hbst⟩
                · exact Or.inl hbS
                · rcases List.mem_cons.mp hbv with rfl | hbv'
                  · exact absurd (List.mem_append_right _ (List.mem_singleton.mpr rfl)) hbst
                  · exact Or.inr ⟨hbv', fun hbs => hbst (List.mem_append_left _ hbs)⟩
            · -- M₂ = P ++ c' and a :: S = c' ++ (n :: M₁)
              cases c' with
              | nil =>
                -- junction again
                simp only [List.nil_append] at hc'S
                injection hc'S with han hSM
                subst han
                subst hSM
                rcases hadjprop b hb with hbM₁ | ⟨hbv, hbst⟩
                · exact Or.inl hbM₁
                · rcases List.mem_cons.mp hbv with rfl | hbv'
                  · exact absurd (List.mem_append_right _ (List.mem_singleton.mpr rfl)) hbst
                  · exact Or.inr ⟨hbv', fun hbs => hbst (List.mem_append_left _ hbs)⟩
              | cons c0 c'' =>
                -- inside M₂, with S = c'' ++ (n :: M₁)
                injection hc'S with hac0 hS
                subst hac0
                rcases htopo₂ P a c'' hc'M b hb with hbS | ⟨hbv₁, hbst⟩
                · exact Or.inl (hS ▸ List.mem_append_left _ hbS)
                · rw [hv₁] at hbv₁
                  rcases List.mem_append.mp hbv₁ with hbn | hbn
                  · refine Or.inl (hS ▸ List.mem_append_right _ ?_)
                    exact List.mem_cons_of_mem _ (hperm₁.mem_iff.mpr hbn)
                  · rcases List.mem_cons.mp hbn with rfl | hbv
                    · exact Or.inl (hS ▸ List.mem_append_right _ (List.mem_cons_self _ _))
                    · exact Or.inr ⟨hbv, hbst⟩

theorem find_cycles_go_cert (g : Graph) :
    ∀ (roots visited Mv : List String),
      find_cycles_go g roots visited [] = [] →
      List.Perm Mv visited →
      TopoAfter g Mv [] [] →
      (∀ r ∈ roots, r ∈ nodesOf g) →
      visited.Nodup →
      ∃ Vf Mf, List.Perm Mf Vf ∧ TopoAfter g Mf [] [] ∧ Vf.Nodup ∧
        (∀ r ∈ roots, r ∈ Vf) ∧ (∀ x ∈ visited, x ∈ Vf) := by
  intro roots
  induction roots with
  | nil =>
    intro visited Mv _ hperm htopo _ hnd
    exact ⟨visited, Mv, hperm, htopo, hnd, by simp, fun x hx => hx⟩
  | cons node rest ih =>
    intro visited Mv hres hperm htopo hroots hnd
    rw [find_cycles_go_cons] at hres
    by_cases hnv : node ∈ visited
    · rw [if_pos hnv] at hres
      obtain ⟨Vf, Mf, h1, h2, h3, h4, h5⟩ :=
        ih visited Mv hres hperm htopo
          (fun r hr => hroots r (List.mem_cons_of_mem _ hr)) hnd
      refine ⟨Vf, Mf, h1, h2, h3, ?_, h5⟩
      intro r hr
      rcases List.mem_cons.mp hr with rfl | hr
      · exact h5 r hnv
      · exact h4 r hr
    · rw [if_neg hnv] at hres
      obtain ⟨f, hf⟩ : ∃ f, cycleFuel g = f + 1 :=
        ⟨cycleFuel g - 1, by unfold cycleFuel; omega⟩
      have hunf : dfs_cycle g (cycleFuel g) node [] visited
          = dfs_neighbors g f (adj g node) [node] (node :: visited) := by
        rw [hf]; rfl
      rcases hcall : dfs_neighbors g f (adj g node) [node] (node :: visited)
        with ⟨v₁, copt⟩
      rw [hunf, hcall] at hres
      cases copt with
      | some c =>
        exfalso
        replace hres : find_cycles_go g rest v₁
            (if c ∈ ([] : List (List String)) then [] else [] ++ [c]) = [] := hres
        rw [if_neg (List.not_mem_nil c)] at hres
        obtain ⟨more, hmore⟩ := find_cycles_go_extends g rest v₁ ([] ++ [c])
        rw [hmore] at hres
        simp at hres
      | none =>
        have hnode : node ∈ nodesOf g := hroots node (List.mem_cons_self _ _)
        have hwcons := cycleWeight_cons hnode hnv
        have hwmono : cycleWeight g visited ≤ cycleWeight g [] :=
          cycleWeight_mono (by simp)
        have hnil : cycleWeight g []
            ≤ ((nodesOf g).map (fun x => 2 + (adj g x).length)).sum :=
          weightSum_nil_le _ g
        have hfval : cycleFuel g
            = 1 + ((nodesOf g).map (fun x => 2 + (adj g x).length)).sum := rfl
        have hfsuf : 1 + (adj g node).length + cycleWeight g (node :: visited) ≤ f := by
          omega
        obtain ⟨M₁, new₁, hv₁, hperm₁, hadjprop, htopo₁⟩ :=
          dfs_neighbors_cert g f (adj g node) [node] (node :: visited) v₁ hcall hfsuf
            (fun m hm => adj_subset_nodesOf hm)
            (by
              intro s hs
              simp only [List.mem_singleton] at hs
              subst hs
              exact List.mem_cons_self _ _)
        have hperm' : List.Perm ((node :: M₁) ++ Mv) v₁ := by
          rw [hv₁]
          have h1 : List.Perm ((node :: M₁) ++ Mv) ((node :: new₁) ++ visited) :=
            List.Perm.append (hperm₁.cons node) hperm
          have h2 : List.Perm ((node :: new₁) ++ visited) (new₁ ++ node :: visited) := by
            rw [List.cons_append]
            exact List.perm_middle.symm
          exact h1.trans h2
        have htopo' : TopoAfter g ((node :: M₁) ++ Mv) [] [] := by
          intro P a S hsplit b hb
          rcases List.append_eq_append_iff.mp hsplit with
            ⟨a', _, hMv⟩ | ⟨c', hnM₁, haS⟩
          · rcases htopo a' a S hMv b hb with hbS | ⟨hbnil, _⟩
            · exact Or.inl hbS
            · exact absurd hbnil (List.not_mem_nil b)
          · cases c' with
            | nil =>
              simp only [List.nil_append] at haS
              rcases htopo [] a S (by simpa using haS.symm) b hb with hbS | ⟨hbnil, _⟩
              · exact Or.inl hbS
              · exact absurd hbnil (List.not_mem_nil b)
            | cons a0 c'' =>
              injection haS with ha0 hS
              subst ha0
              cases P with
              | nil =>
                simp only [List.nil_append] at hnM₁
                injection hnM₁ with hna hM₁
                subst hna
                subst hM₁
                rcases hadjprop b hb with hbM₁ | ⟨hbv, hbst⟩
                · exact Or.inl (hS ▸ List.mem_append_left _ hbM₁)
                · rcases List.mem_cons.mp hbv with rfl | hbv'
                  · exact absurd (List.mem_singleton.mpr rfl) hbst
                  · exact Or.inl (hS ▸ List.mem_append_right _ (hperm.mem_iff.mpr hbv'))
              | cons p0 P₁ =>
                injection hnM₁ with hnp hM₁
                rcases htopo₁ P₁ a c'' hM₁ b hb with hbS | ⟨hbv, hbst⟩
                · exact Or.inl (hS ▸ List.mem_append_left _ hbS)
                · rcases List.mem_cons.mp hbv with rfl | hbv'
                  · exact absurd (List.mem_singleton.mpr rfl) hbst
                  · exact Or.inl (hS ▸ List.mem_append_right _ (hperm.mem_iff.mpr hbv'))
        have hnd₁ : v₁.Nodup := by
          have := dfs_neighbors_nodup g f (adj g node) [node] (node :: visited)
            (List.nodup_cons.mpr ⟨hnv, hnd⟩)
          rwa [hcall] at this
        obtain ⟨Vf, Mf, h1, h2, h3, h4, h5⟩ :=
          ih v₁ ((node :: M₁) ++ Mv) hres hperm' htopo'
            (fun r hr => hroots r (List.mem_cons_of_mem _ hr)) hnd₁
        have hsubv₁ : ∀ x ∈ visited, x ∈ v₁ := by
          intro x hx
          rw [hv₁]
          exact List.mem_append_right _ (List.mem_cons_of_mem _ hx)
        refine ⟨Vf, Mf, h1, h2, h3, ?_, fun x hx => h5 x (hsubv₁ x hx)⟩
        intro r hr
        rcases List.mem_cons.mp hr with rfl | hr
        · refine h5 r ?_
          rw [hv₁]
          exact List.mem_append_right _ (List.mem_cons_self _ _)
        · exact h4 r hr

/-! ## C4 — from the certificate to acyclicity -/

theorem indexOf_split {a : String} :
    ∀ (P S : List String), (P ++ a :: S).Nodup →
      List.indexOf a (P ++ a :: S) = P.length := by
  intro P
  induction P with
  | nil => intro S _; simp
  | cons p P ih =>
    intro S hnd
    have hpa : p ≠ a := by
      rintro rfl
      exact (List.nodup_cons.mp hnd).1
        (List.mem_append_right _ (List.mem_cons_self _ _))
    rw [List.cons_append, List.indexOf_cons_ne _ hpa,
      ih S (List.nodup_cons.mp (by simpa using hnd)).2]
    rfl

theorem indexOf_append_not_mem {b : String} :
    ∀ {P l : List String}, b ∉ P →
      List.indexOf b (P ++ l) = P.length + List.indexOf b l := by
  intro P
  induction P with
  | nil => intro l _; simp
  | cons p P ih =>
    intro l hb
    have hpb : p ≠ b := fun h => hb (h ▸ List.mem_cons_self _ _)
    rw [List.cons_append, List.indexOf_cons_ne _ hpb,
      ih (fun h => hb (List.mem_cons_of_mem _ h))]
    simp [Nat.succ_add]

theorem topo_edge_index_lt {g : Graph} {M : List String} (hnd : M.Nodup)
    (htopo : TopoAfter g M [] []) {a b : String} (hedge : Edge g a b)
    (ha : a ∈ M) : b ∈ M ∧ List.indexOf a M < List.indexOf b M := by
  obtain ⟨P, S, hPS⟩ := List.mem_iff_append.mp ha
  subst hPS
  rcases htopo P a S rfl b hedge with hbS | ⟨hbnil, _⟩
  · have hbP : b ∉ P := by
      intro hbP
      have hdisj := List.disjoint_of_nodup_append hnd
      exact hdisj hbP (List.mem_cons_of_mem _ hbS)
    have hba : b ≠ a := by
      rintro rfl
      have := (List.nodup_append.mp hnd).2.1
      exact (List.nodup_cons.mp this).1 hbS
    constructor
    · exact List.mem_append_right _ (List.mem_cons_of_mem _ hbS)
    · rw [indexOf_split P S hnd, indexOf_append_not_mem hbP,
        List.indexOf_cons_ne _ (Ne.symm hba)]
      omega
  · exact absurd hbnil (List.not_mem_nil b)

theorem transGen_index_lt {g : Graph} {M : List String} (hnd : M.Nodup)
    (htopo : TopoAfter g M [] []) :
    ∀ {a b : String}, Relation.TransGen (Edge g) a b → a ∈ M →
      b ∈ M ∧ List.indexOf a M < List.indexOf b M := by
  intro a b h
  induction h with
  | single hedge => exact fun ha => topo_edge_index_lt hnd htopo hedge ha
  | tail _ hedge ih =>
    intro ha
    obtain ⟨hbM, hlt⟩ := ih ha
    obtain ⟨hcM, hlt2⟩ := topo_edge_index_lt hnd htopo hedge hbM
    exact ⟨hcM, lt_trans hlt hlt2⟩

theorem transGen_first_edge {g : Graph} {a b : String}
    (h : Relation.TransGen (Edge g) a b) : ∃ y, Edge g a y := by
  induction h with
  | single h => exact ⟨_, h⟩
  | tail _ _ ih => exact ih

/-- **C4.** The cycle finder returns an empty list exactly when the loaded
prerequisite graph is acyclic: on a DAG no cycle is reported, and any graph
with at least one cycle yields at least one reported cycle.  A reported cycle
is the recursion-stack slice from the repeated node forward plus that node:
on `A → B → A` the result is the single cycle `["A", "B", "A"]`, containing
both `A` and `B`. -/
theorem c4_find_cycles_empty_iff_acyclic :
    (∀ g : Graph, find_cycles g = [] ↔ ∀ x, ¬ Relation.TransGen (Edge g) x x) ∧
      find_cycles [("A", ["B"]), ("B", ["A"])] = [["A", "B", "A"]] := by
  constructor
  · intro g
    constructor
    · intro hempty x hcyc
      have hfc : find_cycles_go g (g.map Prod.fst) [] [] = [] := hempty
      obtain ⟨Vf, Mf, hperm, htopo, hndVf, hroots, _⟩ :=
        find_cycles_go_cert g (g.map Prod.fst) [] [] hfc (List.Perm.refl [])
          (by intro P a S h; exact absurd h (by simp))
          (fun r hr => keys_subset_nodesOf hr) List.nodup_nil
      have hndMf : Mf.Nodup := hperm.nodup_iff.mpr hndVf
      obtain ⟨y, hy⟩ := transGen_first_edge hcyc
      have hxMf : x ∈ Mf := hperm.mem_iff.mpr (hroots x (mem_keys_of_adj hy))
      obtain ⟨_, hlt⟩ := transGen_index_lt hndMf htopo hcyc hxMf
      exact lt_irrefl _ hlt
    · intro hacyc
      by_contra hne
      obtain ⟨x, hx⟩ := find_cycles_go_sound g (g.map Prod.fst) [] hne
      exact hacyc x hx
  · decide

end RuvectorDeps
